import Mathlib

/-!
Shallow embedding of the Bitcoin transaction codec from `src/lib.rs`
(CompactSize varints, Txid, OutPoint, Script, TransactionInput,
BitcoinTransaction), together with proofs of the specified properties.

Byte buffers are modelled as `List Nat`, each element standing for one `u8`
(well-formedness `< 256` is carried as a hypothesis where a claim needs it).
Machine integers (`u16`/`u32`/`u64`) are `Nat` with explicit truncation by
`% 2^w` where the Rust code performs an `as` cast; little-endian reads and
writes are the functions `fromLe` / `toLeBytes` below.  Fallible decoders
return `Except BitcoinError`, mirroring Rust's `Result<_, BitcoinError>`.
-/

namespace BitcoinCodec

/-- Little-endian byte list of width `w` for `n`; models
`uN::to_le_bytes` (the value is implicitly truncated to `2 ^ (8 * w)`,
exactly as the Rust `as uN` cast does). -/
def toLeBytes : Nat → Nat → List Nat
  | 0, _ => []
  | w + 1, n => n % 256 :: toLeBytes w (n / 256)

/-- Value of a little-endian byte list; models `uN::from_le_bytes`. -/
def fromLe : List Nat → Nat
  | [] => 0
  | b :: bs => b + 256 * fromLe bs

/-- The error enum of `src/lib.rs`. -/
inductive BitcoinError where
  | InsufficientBytes
  | InvalidFormat
deriving DecidableEq, Repr

/-- `struct CompactSize { value: u64 }`. -/
structure CompactSize where
  value : Nat
deriving DecidableEq, Repr

/-- `CompactSize::new`. -/
def CompactSize.new (v : Nat) : CompactSize := ⟨v⟩

/-- `CompactSize::to_bytes`: four width classes selected by magnitude.
The Rust arms truncate with `as u8`/`as u16`/`as u32`/`as u64`; `toLeBytes`
performs the same truncation. -/
def CompactSize.to_bytes (c : CompactSize) : List Nat :=
  if c.value ≤ 252 then toLeBytes 1 c.value
  else if c.value ≤ 0xffff then 0xfd :: toLeBytes 2 c.value
  else if c.value ≤ 0xffffffff then 0xfe :: toLeBytes 4 c.value
  else 0xff :: toLeBytes 8 c.value

/-- `CompactSize::from_bytes`.  In Rust the match is over a `u8`, so the
final arm is exactly the byte `0xff`; on byte-valued input (every element
`< 256`) this definition agrees with it arm for arm.  The Rust guard
`bytes.len() < 3` (resp. 5, 9) is `rest.length < 2` (resp. 4, 8) here since
`bytes = b0 :: rest`. -/
def CompactSize.from_bytes : List Nat → Except BitcoinError (CompactSize × Nat)
  | [] => .error .InsufficientBytes
  | b0 :: rest =>
    if b0 ≤ 0xfc then .ok (CompactSize.new b0, 1)
    else if b0 = 0xfd then
      if rest.length < 2 then .error .InsufficientBytes
      else .ok (CompactSize.new (fromLe (rest.take 2)), 3)
    else if b0 = 0xfe then
      if rest.length < 4 then .error .InsufficientBytes
      else .ok (CompactSize.new (fromLe (rest.take 4)), 5)
    else
      if rest.length < 8 then .error .InsufficientBytes
      else .ok (CompactSize.new (fromLe (rest.take 8)), 9)

/-- `struct Txid(pub [u8; 32])` (the 32-byte bound is carried as a
hypothesis where needed). -/
structure Txid where
  bytes : List Nat
deriving DecidableEq, Repr

/-- `struct OutPoint { txid: Txid, vout: u32 }`. -/
structure OutPoint where
  txid : Txid
  vout : Nat
deriving DecidableEq, Repr

/-- `OutPoint::new`. -/
def OutPoint.new (txid : List Nat) (vout : Nat) : OutPoint := ⟨⟨txid⟩, vout⟩

/-- `OutPoint::to_bytes`: 32 raw txid bytes then 4-byte LE vout. -/
def OutPoint.to_bytes (o : OutPoint) : List Nat :=
  o.txid.bytes ++ toLeBytes 4 o.vout

/-- `OutPoint::from_bytes`. -/
def OutPoint.from_bytes (bytes : List Nat) : Except BitcoinError (OutPoint × Nat) :=
  if bytes.length < 36 then .error .InsufficientBytes
  else .ok (OutPoint.new (bytes.take 32) (fromLe ((bytes.drop 32).take 4)), 36)

/-- `struct Script { bytes: Vec<u8> }`. -/
structure Script where
  bytes : List Nat
deriving DecidableEq, Repr

/-- `Script::new`. -/
def Script.new (bytes : List Nat) : Script := ⟨bytes⟩

/-- `Script::to_bytes`: CompactSize length prefix then raw bytes. -/
def Script.to_bytes (s : Script) : List Nat :=
  (CompactSize.new s.bytes.length).to_bytes ++ s.bytes

/-- `Script::from_bytes` with exact (`Nat`) arithmetic in the length
check.  `len_prefix.value as usize` is lossless on 64-bit targets, but the
Rust check `bytes.len() < consumed + len` adds in `usize`, which can
overflow; this definition and the program agree on every input whose sum
`consumed + len` stays below `2 ^ 64` (overflow is reachable only through
the `0xff` marker with a decoded length of at least `2 ^ 64 - 9`, where
the program panics instead of returning — see `Script.from_bytes_usize`
for the compiled semantics including that panic). -/
def Script.from_bytes (bytes : List Nat) : Except BitcoinError (Script × Nat) :=
  match CompactSize.from_bytes bytes with
  | .error e => .error e
  | .ok (lenPfx, consumed) =>
    if bytes.length < consumed + lenPfx.value then .error .InsufficientBytes
    else .ok (Script.new ((bytes.drop consumed).take lenPfx.value), consumed + lenPfx.value)

/-- `Script::from_bytes` with the `usize` arithmetic of the compiled
program.  When `consumed + len` overflows `usize` (sum at least `2 ^ 64`),
the program panics: a debug build at the addition itself, a release build
at the slice `bytes[consumed..consumed + len]`, whose wrapped upper bound
`consumed + len - 2 ^ 64` is below `consumed` (the wrapped length check
cannot reject first, because the wrapped sum is below `consumed`, which
never exceeds `bytes.len()`).  The panic is modelled as `none`; on every
non-overflowing input this agrees with `Script.from_bytes` (see
`script_from_bytes_usize_agrees`). -/
def Script.from_bytes_usize (bytes : List Nat) :
    Option (Except BitcoinError (Script × Nat)) :=
  match CompactSize.from_bytes bytes with
  | .error e => some (.error e)
  | .ok (lenPfx, consumed) =>
    if consumed + lenPfx.value < 2 ^ 64 then
      if bytes.length < consumed + lenPfx.value then some (.error .InsufficientBytes)
      else some (.ok (Script.new ((bytes.drop consumed).take lenPfx.value),
          consumed + lenPfx.value))
    else none

/-- `struct TransactionInput`. -/
structure TransactionInput where
  previous_output : OutPoint
  script_sig : Script
  sequence : Nat
deriving DecidableEq, Repr

/-- `TransactionInput::new`. -/
def TransactionInput.new (po : OutPoint) (ss : Script) (sq : Nat) : TransactionInput :=
  ⟨po, ss, sq⟩

/-- `TransactionInput::to_bytes`: OutPoint, Script, 4-byte LE sequence. -/
def TransactionInput.to_bytes (i : TransactionInput) : List Nat :=
  i.previous_output.to_bytes ++ i.script_sig.to_bytes ++ toLeBytes 4 i.sequence

/-- `TransactionInput::from_bytes`. -/
def TransactionInput.from_bytes (bytes : List Nat) :
    Except BitcoinError (TransactionInput × Nat) :=
  match OutPoint.from_bytes bytes with
  | .error e => .error e
  | .ok (outpoint, used1) =>
    match Script.from_bytes (bytes.drop used1) with
    | .error e => .error e
    | .ok (script, used2) =>
      if bytes.length < used1 + used2 + 4 then .error .InsufficientBytes
      else .ok (TransactionInput.new outpoint script
          (fromLe ((bytes.drop (used1 + used2)).take 4)), used1 + used2 + 4)

/-- `struct BitcoinTransaction`. -/
structure BitcoinTransaction where
  version : Nat
  inputs : List TransactionInput
  lock_time : Nat
deriving DecidableEq, Repr

/-- `BitcoinTransaction::new`. -/
def BitcoinTransaction.new (v : Nat) (ins : List TransactionInput) (lt : Nat) :
    BitcoinTransaction := ⟨v, ins, lt⟩

/-- The encoding loop `for input in &self.inputs { v.extend(input.to_bytes()) }`. -/
def encodeInputs : List TransactionInput → List Nat
  | [] => []
  | i :: is => i.to_bytes ++ encodeInputs is

/-- `BitcoinTransaction::to_bytes`. -/
def BitcoinTransaction.to_bytes (t : BitcoinTransaction) : List Nat :=
  toLeBytes 4 t.version ++ (CompactSize.new t.inputs.length).to_bytes
    ++ encodeInputs t.inputs ++ toLeBytes 4 t.lock_time

/-- The decoding loop `for _ in 0..input_count.value { ... }` of
`BitcoinTransaction::from_bytes`: `n` iterations over an absolute cursor,
each decoding one input from `bytes[cursor..]` and advancing by the bytes
it consumed. -/
def decodeInputs : Nat → List Nat → Nat → Except BitcoinError (List TransactionInput × Nat)
  | 0, _, cursor => .ok ([], cursor)
  | n + 1, bytes, cursor =>
    match TransactionInput.from_bytes (bytes.drop cursor) with
    | .error e => .error e
    | .ok (input, used) =>
      match decodeInputs n bytes (cursor + used) with
      | .error e => .error e
      | .ok (inputs, c) => .ok (input :: inputs, c)

/-- `BitcoinTransaction::from_bytes`. -/
def BitcoinTransaction.from_bytes (bytes : List Nat) :
    Except BitcoinError (BitcoinTransaction × Nat) :=
  if bytes.length < 4 then .error .InsufficientBytes
  else
    match CompactSize.from_bytes (bytes.drop 4) with
    | .error e => .error e
    | .ok (input_count, offset) =>
      match decodeInputs input_count.value bytes (4 + offset) with
      | .error e => .error e
      | .ok (inputs, cursor) =>
        if bytes.length < cursor + 4 then .error .InsufficientBytes
        else .ok (BitcoinTransaction.new (fromLe (bytes.take 4)) inputs
            (fromLe ((bytes.drop cursor).take 4)), cursor + 4)

/-! ### Well-formedness: the value ranges imposed by the Rust types -/

/-- Every element is a byte (`u8`). -/
def byteList (l : List Nat) : Prop := ∀ b ∈ l, b < 256

/-- A `Txid` holds exactly 32 bytes. -/
def Txid.wf (t : Txid) : Prop := t.bytes.length = 32 ∧ byteList t.bytes

/-- `vout` is a `u32`. -/
def OutPoint.wf (o : OutPoint) : Prop := o.txid.wf ∧ o.vout < 2 ^ 32

/-- Script bytes are `u8`s; a `Vec` length fits in `u64` (Rust's
`len() as u64` is lossless). -/
def Script.wf (s : Script) : Prop := byteList s.bytes ∧ s.bytes.length < 2 ^ 64

/-- `sequence` is a `u32`. -/
def TransactionInput.wf (i : TransactionInput) : Prop :=
  i.previous_output.wf ∧ i.script_sig.wf ∧ i.sequence < 2 ^ 32

/-- `version` and `lock_time` are `u32`s; the input count fits in `u64`. -/
def BitcoinTransaction.wf (t : BitcoinTransaction) : Prop :=
  t.version < 2 ^ 32 ∧ (∀ i ∈ t.inputs, i.wf) ∧ t.inputs.length < 2 ^ 64
    ∧ t.lock_time < 2 ^ 32

/-! ### Little-endian arithmetic lemmas -/

theorem length_toLeBytes (w n : Nat) : (toLeBytes w n).length = w := by
  induction w generalizing n with
  | zero => rfl
  | succ w ih => simp [toLeBytes, ih]

theorem fromLe_toLeBytes (w n : Nat) : fromLe (toLeBytes w n) = n % 256 ^ w := by
  induction w generalizing n with
  | zero => simp [toLeBytes, fromLe, Nat.mod_one]
  | succ w ih =>
    simp only [toLeBytes, fromLe, ih]
    rw [pow_succ, Nat.mul_comm (256 ^ w) 256, Nat.mod_mul]

theorem fromLe_toLeBytes_of_lt {w n : Nat} (h : n < 256 ^ w) :
    fromLe (toLeBytes w n) = n := by
  rw [fromLe_toLeBytes, Nat.mod_eq_of_lt h]

theorem byteList_toLeBytes (w n : Nat) : byteList (toLeBytes w n) := by
  induction w generalizing n with
  | zero => intro b hb; simp [toLeBytes] at hb
  | succ w ih =>
    intro b hb
    simp only [toLeBytes, List.mem_cons] at hb
    rcases hb with h | h
    · exact h ▸ Nat.mod_lt _ (by norm_num)
    · exact ih _ b h

theorem take_append_of_length {α : Type} {l1 : List α} (l2 : List α) {w : Nat}
    (h : l1.length = w) : (l1 ++ l2).take w = l1 := by
  subst h; simp

theorem drop_append_of_length {α : Type} {l1 : List α} (l2 : List α) {w : Nat}
    (h : l1.length = w) : (l1 ++ l2).drop w = l2 := by
  subst h; simp

/-! ### Encode/decode round-trip lemmas, one per component -/

theorem CompactSize.from_bytes_small {b0 : Nat} (h : b0 ≤ 252) (rest : List Nat) :
    CompactSize.from_bytes (b0 :: rest) = .ok (CompactSize.new b0, 1) := by
  simp only [CompactSize.from_bytes]
  rw [if_pos (by omega)]

theorem CompactSize.from_bytes_fd (rest : List Nat) (h : 2 ≤ rest.length) :
    CompactSize.from_bytes (0xfd :: rest)
      = .ok (CompactSize.new (fromLe (rest.take 2)), 3) := by
  simp only [CompactSize.from_bytes]
  rw [if_neg (by norm_num), if_pos trivial, if_neg (by omega)]

theorem CompactSize.from_bytes_fd_short (rest : List Nat) (h : rest.length < 2) :
    CompactSize.from_bytes (0xfd :: rest) = .error .InsufficientBytes := by
  simp only [CompactSize.from_bytes]
  rw [if_neg (by norm_num), if_pos trivial, if_pos h]

theorem CompactSize.from_bytes_fe (rest : List Nat) (h : 4 ≤ rest.length) :
    CompactSize.from_bytes (0xfe :: rest)
      = .ok (CompactSize.new (fromLe (rest.take 4)), 5) := by
  simp only [CompactSize.from_bytes]
  rw [if_neg (by norm_num), if_neg (by norm_num), if_pos trivial, if_neg (by omega)]

theorem CompactSize.from_bytes_fe_short (rest : List Nat) (h : rest.length < 4) :
    CompactSize.from_bytes (0xfe :: rest) = .error .InsufficientBytes := by
  simp only [CompactSize.from_bytes]
  rw [if_neg (by norm_num), if_neg (by norm_num), if_pos trivial, if_pos h]

theorem CompactSize.from_bytes_ff (rest : List Nat) (h : 8 ≤ rest.length) :
    CompactSize.from_bytes (0xff :: rest)
      = .ok (CompactSize.new (fromLe (rest.take 8)), 9) := by
  simp only [CompactSize.from_bytes]
  rw [if_neg (by norm_num), if_neg (by norm_num), if_neg (by norm_num), if_neg (by omega)]

theorem CompactSize.from_bytes_ff_short (rest : List Nat) (h : rest.length < 8) :
    CompactSize.from_bytes (0xff :: rest) = .error .InsufficientBytes := by
  simp only [CompactSize.from_bytes]
  rw [if_neg (by norm_num), if_neg (by norm_num), if_neg (by norm_num), if_pos h]

theorem compactSize_from_to (c : CompactSize) (h : c.value < 2 ^ 64) (rest : List Nat) :
    CompactSize.from_bytes (c.to_bytes ++ rest) = .ok (c, c.to_bytes.length) := by
  unfold CompactSize.to_bytes
  split_ifs with h1 h2 h3
  · have hv : c.value % 256 = c.value := Nat.mod_eq_of_lt (by omega)
    show CompactSize.from_bytes (c.value % 256 :: ([] ++ rest)) = _
    rw [hv, CompactSize.from_bytes_small h1]
    rfl
  · rw [List.cons_append,
      CompactSize.from_bytes_fd _ (by simp [length_toLeBytes]),
      take_append_of_length rest (length_toLeBytes 2 c.value),
      fromLe_toLeBytes, Nat.mod_eq_of_lt (by norm_num at h2 ⊢; omega)]
    simp [CompactSize.new, length_toLeBytes]
  · rw [List.cons_append,
      CompactSize.from_bytes_fe _ (by simp [length_toLeBytes]),
      take_append_of_length rest (length_toLeBytes 4 c.value),
      fromLe_toLeBytes, Nat.mod_eq_of_lt (by norm_num at h3 ⊢; omega)]
    simp [CompactSize.new, length_toLeBytes]
  · rw [List.cons_append,
      CompactSize.from_bytes_ff _ (by simp [length_toLeBytes]),
      take_append_of_length rest (length_toLeBytes 8 c.value),
      fromLe_toLeBytes, Nat.mod_eq_of_lt (by norm_num at h ⊢; omega)]
    simp [CompactSize.new, length_toLeBytes]

theorem outPoint_from_to (o : OutPoint) (h : o.wf) (rest : List Nat) :
    OutPoint.from_bytes (o.to_bytes ++ rest) = .ok (o, 36) := by
  obtain ⟨⟨h32, _⟩, hv⟩ := h
  unfold OutPoint.to_bytes OutPoint.from_bytes
  rw [List.append_assoc]
  have hlen : (o.txid.bytes ++ (toLeBytes 4 o.vout ++ rest)).length
      = 36 + rest.length := by
    simp [h32, length_toLeBytes]; omega
  rw [if_neg (by omega), take_append_of_length _ h32, drop_append_of_length _ h32,
    take_append_of_length rest (length_toLeBytes 4 o.vout),
    fromLe_toLeBytes, Nat.mod_eq_of_lt (by norm_num at hv ⊢; omega)]
  rfl

theorem outPoint_to_bytes_length (o : OutPoint) (h : o.txid.bytes.length = 32) :
    o.to_bytes.length = 36 := by
  simp [OutPoint.to_bytes, h, length_toLeBytes]

theorem script_from_to (s : Script) (h : s.bytes.length < 2 ^ 64) (rest : List Nat) :
    Script.from_bytes (s.to_bytes ++ rest) = .ok (s, s.to_bytes.length) := by
  unfold Script.to_bytes Script.from_bytes
  rw [List.append_assoc,
    compactSize_from_to (CompactSize.new s.bytes.length) h (s.bytes ++ rest)]
  have hlen : ((CompactSize.new s.bytes.length).to_bytes ++ (s.bytes ++ rest)).length
      = (CompactSize.new s.bytes.length).to_bytes.length + s.bytes.length + rest.length := by
    simp; omega
  simp only [CompactSize.new]
  rw [if_neg (by simp only [CompactSize.new] at hlen; omega),
    drop_append_of_length _ rfl, take_append_of_length rest rfl]
  simp [Script.new]

theorem input_from_to (i : TransactionInput) (h : i.wf) (rest : List Nat) :
    TransactionInput.from_bytes (i.to_bytes ++ rest) = .ok (i, i.to_bytes.length) := by
  obtain ⟨hop, hs, hsq⟩ := h
  have h36 : i.previous_output.to_bytes.length = 36 :=
    outPoint_to_bytes_length i.previous_output hop.1.1
  unfold TransactionInput.to_bytes TransactionInput.from_bytes
  rw [List.append_assoc, List.append_assoc]
  have hop2 : OutPoint.from_bytes (i.previous_output.to_bytes
      ++ (i.script_sig.to_bytes ++ (toLeBytes 4 i.sequence ++ rest)))
      = .ok (i.previous_output, 36) := outPoint_from_to _ hop _
  rw [hop2]
  dsimp only
  have hdrop : (i.previous_output.to_bytes
      ++ (i.script_sig.to_bytes ++ (toLeBytes 4 i.sequence ++ rest))).drop 36
      = i.script_sig.to_bytes ++ (toLeBytes 4 i.sequence ++ rest) :=
    drop_append_of_length _ h36
  rw [hdrop, script_from_to i.script_sig hs.2 (toLeBytes 4 i.sequence ++ rest)]
  dsimp only
  have hlen : (i.previous_output.to_bytes
      ++ (i.script_sig.to_bytes ++ (toLeBytes 4 i.sequence ++ rest))).length
      = 36 + i.script_sig.to_bytes.length + 4 + rest.length := by
    simp [h36, length_toLeBytes]; omega
  rw [if_neg (by omega)]
  have hdrop2 : (i.previous_output.to_bytes
      ++ (i.script_sig.to_bytes ++ (toLeBytes 4 i.sequence ++ rest))).drop
        (36 + i.script_sig.to_bytes.length)
      = toLeBytes 4 i.sequence ++ rest := by
    rw [show 36 + i.script_sig.to_bytes.length
        = (i.previous_output.to_bytes ++ i.script_sig.to_bytes).length from by simp [h36],
      ← List.append_assoc, drop_append_of_length _ rfl]
  rw [hdrop2, take_append_of_length rest (length_toLeBytes 4 i.sequence),
    fromLe_toLeBytes, Nat.mod_eq_of_lt (by norm_num at hsq ⊢; omega)]
  simp [h36, length_toLeBytes, TransactionInput.new]
  omega

theorem decodeInputs_from_to (inputs : List TransactionInput)
    (h : ∀ i ∈ inputs, i.wf) (pre rest : List Nat) :
    decodeInputs inputs.length (pre ++ (encodeInputs inputs ++ rest)) pre.length
      = .ok (inputs, pre.length + (encodeInputs inputs).length) := by
  induction inputs generalizing pre with
  | nil => simp [decodeInputs, encodeInputs]
  | cons i is ih =>
    show decodeInputs (is.length + 1) _ _ = _
    simp only [decodeInputs]
    rw [drop_append_of_length _ rfl]
    simp only [encodeInputs, List.append_assoc]
    rw [input_from_to i (h i (by simp)) (encodeInputs is ++ rest)]
    dsimp only
    have hre : pre ++ (i.to_bytes ++ (encodeInputs is ++ rest))
        = (pre ++ i.to_bytes) ++ (encodeInputs is ++ rest) := by
      simp
    have hcur : pre.length + i.to_bytes.length = (pre ++ i.to_bytes).length := by simp
    rw [hre, hcur, ih (fun j hj => h j (by simp [hj])) (pre ++ i.to_bytes)]
    dsimp only
    simp
    omega

theorem transaction_from_to (t : BitcoinTransaction) (h : t.wf) :
    BitcoinTransaction.from_bytes t.to_bytes = .ok (t, t.to_bytes.length) := by
  obtain ⟨hver, hins, hcount, hlock⟩ := h
  unfold BitcoinTransaction.to_bytes BitcoinTransaction.from_bytes
  set C := (CompactSize.new t.inputs.length).to_bytes with hC
  set E := encodeInputs t.inputs with hE
  set L := toLeBytes 4 t.lock_time with hL
  have hlen4 : (toLeBytes 4 t.version).length = 4 := length_toLeBytes 4 t.version
  have hfull : toLeBytes 4 t.version ++ C ++ E ++ L
      = toLeBytes 4 t.version ++ (C ++ (E ++ L)) := by simp
  rw [hfull]
  have hlen : (toLeBytes 4 t.version ++ (C ++ (E ++ L))).length
      = 4 + C.length + E.length + 4 := by
    simp [hlen4, hL, length_toLeBytes]; omega
  rw [if_neg (by omega), drop_append_of_length _ hlen4,
    compactSize_from_to (CompactSize.new t.inputs.length) hcount (E ++ L)]
  dsimp only
  have hpre : toLeBytes 4 t.version ++ (C ++ (E ++ L))
      = (toLeBytes 4 t.version ++ C) ++ (E ++ L) := by simp
  have hprelen : (toLeBytes 4 t.version ++ C).length = 4 + C.length := by
    simp [hlen4]
  have hdec : decodeInputs t.inputs.length
      (toLeBytes 4 t.version ++ (C ++ (E ++ L))) (4 + C.length)
      = .ok (t.inputs, 4 + C.length + E.length) := by
    rw [hpre, ← hprelen, hE]
    exact decodeInputs_from_to t.inputs hins _ L
  rw [show (CompactSize.new t.inputs.length).value = t.inputs.length from rfl, ← hC, hdec]
  dsimp only
  rw [if_neg (by omega)]
  have htake : (toLeBytes 4 t.version ++ (C ++ (E ++ L))).take 4
      = toLeBytes 4 t.version := take_append_of_length _ hlen4
  have hdropc : (toLeBytes 4 t.version ++ (C ++ (E ++ L))).drop (4 + C.length + E.length)
      = L := by
    rw [show toLeBytes 4 t.version ++ (C ++ (E ++ L))
        = (toLeBytes 4 t.version ++ C ++ E) ++ L from by simp]
    exact drop_append_of_length L (by simp [hlen4]; omega)
  rw [htake, hdropc, fromLe_toLeBytes_of_lt (by norm_num at hver ⊢; omega), hL,
    show (toLeBytes 4 t.lock_time).take 4 = toLeBytes 4 t.lock_time from
      List.take_of_length_le (by rw [length_toLeBytes]),
    fromLe_toLeBytes_of_lt (by norm_num at hlock ⊢; omega)]
  rw [hlen]
  rfl

/-! ### Bounds: a successful decode never consumes more than the buffer holds -/

theorem compactSize_consumed_le (bytes : List Nat) (c : CompactSize) (n : Nat)
    (h : CompactSize.from_bytes bytes = .ok (c, n)) : n ≤ bytes.length := by
  match bytes with
  | [] => simp [CompactSize.from_bytes] at h
  | b0 :: rest =>
    simp only [CompactSize.from_bytes] at h
    split_ifs at h
    all_goals
      obtain ⟨-, hn⟩ := h
      simp only [List.length_cons]
      omega

theorem outPoint_consumed_le (bytes : List Nat) (o : OutPoint) (n : Nat)
    (h : OutPoint.from_bytes bytes = .ok (o, n)) : n ≤ bytes.length := by
  unfold OutPoint.from_bytes at h
  split_ifs at h with hg
  obtain ⟨-, hn⟩ := h
  omega

theorem script_consumed_le (bytes : List Nat) (s : Script) (n : Nat)
    (h : Script.from_bytes bytes = .ok (s, n)) : n ≤ bytes.length := by
  unfold Script.from_bytes at h
  cases hcs : CompactSize.from_bytes bytes with
  | error e => rw [hcs] at h; simp at h
  | ok p =>
    obtain ⟨c, m⟩ := p
    rw [hcs] at h
    dsimp only at h
    split_ifs at h with hg
    obtain ⟨-, hn⟩ := h
    omega

theorem input_consumed_le (bytes : List Nat) (i : TransactionInput) (n : Nat)
    (h : TransactionInput.from_bytes bytes = .ok (i, n)) : n ≤ bytes.length := by
  unfold TransactionInput.from_bytes at h
  cases hop : OutPoint.from_bytes bytes with
  | error e => rw [hop] at h; simp at h
  | ok p =>
    obtain ⟨o, used1⟩ := p
    rw [hop] at h
    dsimp only at h
    cases hs : Script.from_bytes (bytes.drop used1) with
    | error e => rw [hs] at h; simp at h
    | ok q =>
      obtain ⟨s, used2⟩ := q
      rw [hs] at h
      dsimp only at h
      split_ifs at h with hg
      obtain ⟨-, hn⟩ := h
      omega

theorem decodeInputs_cursor_le (k : Nat) (bytes : List Nat) :
    ∀ cursor ins c2, cursor ≤ bytes.length →
      decodeInputs k bytes cursor = .ok (ins, c2) → c2 ≤ bytes.length := by
  induction k with
  | zero =>
    intro cursor ins c2 hc h
    simp only [decodeInputs, Except.ok.injEq, Prod.mk.injEq] at h
    omega
  | succ k ih =>
    intro cursor ins c2 hc h
    simp only [decodeInputs] at h
    cases hin : TransactionInput.from_bytes (bytes.drop cursor) with
    | error e => rw [hin] at h; simp at h
    | ok p =>
      obtain ⟨i, used⟩ := p
      rw [hin] at h
      dsimp only at h
      have hused : used ≤ (bytes.drop cursor).length :=
        input_consumed_le _ _ _ hin
      rw [List.length_drop] at hused
      cases hrec : decodeInputs k bytes (cursor + used) with
      | error e => rw [hrec] at h; simp at h
      | ok q =>
        obtain ⟨ins2, c3⟩ := q
        rw [hrec] at h
        dsimp only at h
        simp only [Except.ok.injEq, Prod.mk.injEq] at h
        obtain ⟨-, hc2⟩ := h
        exact hc2 ▸ ih (cursor + used) ins2 c3 (by omega) hrec

theorem transaction_consumed_le (bytes : List Nat) (t : BitcoinTransaction) (n : Nat)
    (h : BitcoinTransaction.from_bytes bytes = .ok (t, n)) : n ≤ bytes.length := by
  unfold BitcoinTransaction.from_bytes at h
  split_ifs at h with h4
  cases hcs : CompactSize.from_bytes (bytes.drop 4) with
  | error e => rw [hcs] at h; simp at h
  | ok p =>
    obtain ⟨c, off⟩ := p
    rw [hcs] at h
    dsimp only at h
    cases hdec : decodeInputs c.value bytes (4 + off) with
    | error e => rw [hdec] at h; simp at h
    | ok q =>
      obtain ⟨ins, cursor⟩ := q
      rw [hdec] at h
      dsimp only at h
      split_ifs at h with hg
      obtain ⟨-, hn⟩ := h
      omega

/-- A successful run of the decode loop returns exactly as many inputs as
it was asked for. -/
theorem decodeInputs_length (k : Nat) (bytes : List Nat) :
    ∀ cursor ins c2, decodeInputs k bytes cursor = .ok (ins, c2) → ins.length = k := by
  induction k with
  | zero =>
    intro cursor ins c2 h
    simp only [decodeInputs, Except.ok.injEq, Prod.mk.injEq] at h
    simp [← h.1]
  | succ k ih =>
    intro cursor ins c2 h
    simp only [decodeInputs] at h
    cases hin : TransactionInput.from_bytes (bytes.drop cursor) with
    | error e => rw [hin] at h; simp at h
    | ok p =>
      obtain ⟨i, used⟩ := p
      rw [hin] at h
      dsimp only at h
      cases hrec : decodeInputs k bytes (cursor + used) with
      | error e => rw [hrec] at h; simp at h
      | ok q =>
        obtain ⟨ins2, c3⟩ := q
        rw [hrec] at h
        dsimp only at h
        simp only [Except.ok.injEq, Prod.mk.injEq] at h
        obtain ⟨hins, -⟩ := h
        rw [← hins]
        simp [ih _ _ _ hrec]

/-! ### Txid text form (hex serialize / deserialize)

The `Serialize`/`Deserialize` impls for `Txid` call into the `hex` crate:
`hex::encode` renders each byte as two lowercase hex digits, and
`hex::decode` parses pairs of hex digits (either case), failing on an odd
length or a non-hex character.  The crate itself is an external dependency
not present under `src/`, so `hexEncode` / `hexVal` / `hexDecode` model its
documented behaviour; `Txid.serializeHex` / `Txid.deserializeHex` are
translated from the impls in `src/lib.rs` (serde errors are collapsed to a
single custom-error constructor). -/

/-- Lowercase hex digit for a nibble: digits first (codepoint 48 is the
zero digit), then the lowercase letters (codepoint 97 is the letter a,
reached at nibble 10 via 87 + 10). -/
def hexDigit (n : Nat) : Char :=
  if n < 10 then Char.ofNat (48 + n) else Char.ofNat (87 + n)

/-- The sixteen lowercase hex digits, in value order. -/
def hexDigitChars : List Char := (List.range 16).map hexDigit

/-- `hex::encode`: two lowercase digits per byte, high nibble first. -/
def hexEncode : List Nat → List Char
  | [] => []
  | b :: bs => hexDigit (b / 16) :: hexDigit (b % 16) :: hexEncode bs

/-- Value of one hex digit, accepting both cases, as `hex::decode` does. -/
def hexVal (c : Char) : Option Nat :=
  if '0' ≤ c ∧ c ≤ '9' then some (c.toNat - 48)
  else if 'a' ≤ c ∧ c ≤ 'f' then some (c.toNat - 97 + 10)
  else if 'A' ≤ c ∧ c ≤ 'F' then some (c.toNat - 65 + 10)
  else none

/-- `hex::decode`: pairs of digits; fails on odd length or a bad digit. -/
def hexDecode : List Char → Option (List Nat)
  | [] => some []
  | [_] => none
  | c1 :: c2 :: cs =>
    match hexVal c1, hexVal c2, hexDecode cs with
    | some hi, some lo, some bs => some ((16 * hi + lo) :: bs)
    | _, _, _ => none

/-- The one error class serde deserialization reports here (both the hex
failure and the wrong-length failure go through `serde::de::Error::custom`). -/
inductive SerdeError where
  | custom
deriving DecidableEq, Repr

/-- `impl Serialize for Txid`: the hex string of the 32 bytes. -/
def Txid.serializeHex (t : Txid) : List Char := hexEncode t.bytes

/-- `impl Deserialize for Txid`: hex-decode, then require exactly 32 bytes. -/
def Txid.deserializeHex (s : List Char) : Except SerdeError Txid :=
  match hexDecode s with
  | none => .error .custom
  | some bs => if bs.length = 32 then .ok ⟨bs⟩ else .error .custom

theorem hexVal_hexDigit : ∀ n < 16, hexVal (hexDigit n) = some n := by decide

theorem hexDigit_mem : ∀ n < 16, hexDigit n ∈ hexDigitChars := by decide

theorem hexDecode_hexEncode (l : List Nat) (h : byteList l) :
    hexDecode (hexEncode l) = some l := by
  induction l with
  | nil => rfl
  | cons b bs ih =>
    have hb : b < 256 := h b (by simp)
    have hhi : b / 16 < 16 := by omega
    have hlo : b % 16 < 16 := Nat.mod_lt _ (by norm_num)
    have hb2 : 16 * (b / 16) + b % 16 = b := by omega
    simp only [hexEncode, hexDecode, hexVal_hexDigit _ hhi, hexVal_hexDigit _ hlo,
      ih (fun x hx => h x (by simp [hx])), hb2]

theorem length_hexEncode (l : List Nat) : (hexEncode l).length = 2 * l.length := by
  induction l with
  | nil => rfl
  | cons b bs ih => simp [hexEncode, ih]; omega

theorem hexEncode_lowercase (l : List Nat) (h : byteList l) :
    ∀ c ∈ hexEncode l, c ∈ hexDigitChars := by
  induction l with
  | nil => intro c hc; simp [hexEncode] at hc
  | cons b bs ih =>
    intro c hc
    have hb : b < 256 := h b (by simp)
    simp only [hexEncode, List.mem_cons] at hc
    rcases hc with rfl | rfl | hc
    · exact hexDigit_mem _ (by omega)
    · exact hexDigit_mem _ (Nat.mod_lt _ (by norm_num))
    · exact ih (fun x hx => h x (by simp [hx])) c hc

theorem hexDecode_odd (s : List Char) (h : s.length % 2 = 1) : hexDecode s = none := by
  match s with
  | [] => simp at h
  | [c] => rfl
  | c1 :: c2 :: cs =>
    have hcs : cs.length % 2 = 1 := by simp only [List.length_cons] at h; omega
    have hrec := hexDecode_odd cs hcs
    simp only [hexDecode, hrec]
    rcases hexVal c1 with _ | v1 <;> rcases hexVal c2 with _ | v2 <;> rfl

/-! ### Example values used as concrete witnesses -/

/-- The spec's end-to-end example input: zero txid, vout 0, empty script,
sequence `0xffffffff`. -/
def exInput : TransactionInput :=
  TransactionInput.new (OutPoint.new (List.replicate 32 0) 0) (Script.new []) 0xffffffff

/-- The spec's end-to-end example transaction: version 1, one input,
lock time 0; its encoding is 50 bytes. -/
def exTx : BitcoinTransaction := BitcoinTransaction.new 1 [exInput] 0

/-! ### The claims -/

/-- C1: for every constructed `BitcoinTransaction` (any `u32` version and
lock time, any finite sequence of inputs, each with a 32-byte txid, `u32`
vout and sequence, and arbitrary script bytes),
`BitcoinTransaction::from_bytes` applied to `BitcoinTransaction::to_bytes`
succeeds and returns exactly the transaction together with the full length
of its encoding. -/
theorem transaction_roundtrip (t : BitcoinTransaction) (h : t.wf) :
    BitcoinTransaction.from_bytes t.to_bytes = .ok (t, t.to_bytes.length) :=
  transaction_from_to t h

/-- Witness for C1: the spec's 50-byte end-to-end example round-trips. -/
theorem transaction_roundtrip_witness :
    exTx.wf ∧ BitcoinTransaction.from_bytes exTx.to_bytes = .ok (exTx, 50) := by
  have hwf : exTx.wf := by
    simp [BitcoinTransaction.wf, TransactionInput.wf, OutPoint.wf, Txid.wf, Script.wf,
      byteList, exTx, exInput, BitcoinTransaction.new, TransactionInput.new,
      OutPoint.new, Script.new]
  refine ⟨hwf, ?_⟩
  have hlen : exTx.to_bytes.length = 50 := by decide
  have h := transaction_roundtrip exTx hwf
  rw [hlen] at h
  exact h

/-- C2: `BitcoinTransaction::from_bytes` fails with `InsufficientBytes` on
fewer than 4 bytes; otherwise it decodes a VarInt count after the version
and propagates any failure of that decode; the loop decodes exactly
`count` inputs left to right, propagating the error of any failing input
with no partial transaction; and after the inputs it fails with
`InsufficientBytes` unless 4 more bytes remain for the lock time. -/
theorem transaction_decode_steps (bytes : List Nat) :
    (bytes.length < 4 → BitcoinTransaction.from_bytes bytes = .error .InsufficientBytes)
    ∧ (∀ e, 4 ≤ bytes.length → CompactSize.from_bytes (bytes.drop 4) = .error e →
        BitcoinTransaction.from_bytes bytes = .error e)
    ∧ (∀ n cursor e, TransactionInput.from_bytes (bytes.drop cursor) = .error e →
        decodeInputs (n + 1) bytes cursor = .error e)
    ∧ (∀ c off e, 4 ≤ bytes.length → CompactSize.from_bytes (bytes.drop 4) = .ok (c, off) →
        decodeInputs c.value bytes (4 + off) = .error e →
        BitcoinTransaction.from_bytes bytes = .error e)
    ∧ (∀ c off ins cursor, 4 ≤ bytes.length →
        CompactSize.from_bytes (bytes.drop 4) = .ok (c, off) →
        decodeInputs c.value bytes (4 + off) = .ok (ins, cursor) →
        ins.length = c.value
        ∧ (bytes.length < cursor + 4 →
            BitcoinTransaction.from_bytes bytes = .error .InsufficientBytes)
        ∧ (cursor + 4 ≤ bytes.length →
            BitcoinTransaction.from_bytes bytes
              = .ok (BitcoinTransaction.new (fromLe (bytes.take 4)) ins
                  (fromLe ((bytes.drop cursor).take 4)), cursor + 4))) := by
  refine ⟨?_, ?_, ?_, ?_, ?_⟩
  · intro hshort
    unfold BitcoinTransaction.from_bytes
    rw [if_pos hshort]
  · intro e hlen hcs
    unfold BitcoinTransaction.from_bytes
    rw [if_neg (by omega), hcs]
  · intro n cursor e hin
    simp only [decodeInputs]
    rw [hin]
  · intro c off e hlen hcs hdec
    unfold BitcoinTransaction.from_bytes
    rw [if_neg (by omega), hcs]
    dsimp only
    rw [hdec]
  · intro c off ins cursor hlen hcs hdec
    refine ⟨decodeInputs_length _ _ _ _ _ hdec, ?_, ?_⟩
    · intro hshort
      unfold BitcoinTransaction.from_bytes
      rw [if_neg (by omega), hcs]
      dsimp only
      rw [hdec]
      dsimp only
      rw [if_pos hshort]
    · intro hrest
      unfold BitcoinTransaction.from_bytes
      rw [if_neg (by omega), hcs]
      dsimp only
      rw [hdec]
      dsimp only
      rw [if_neg (by omega)]

/-- Witness for C2: a 9-byte buffer (version 1, VarInt count 0, lock time 0)
decodes to the empty-input transaction consuming all 9 bytes. -/
theorem transaction_decode_steps_witness :
    BitcoinTransaction.from_bytes [1, 0, 0, 0, 0, 0, 0, 0, 0]
      = .ok (BitcoinTransaction.new 1 [] 0, 9) := by
  have h := ((transaction_decode_steps [1, 0, 0, 0, 0, 0, 0, 0, 0]).2.2.2.2
    (CompactSize.new 0) 1 [] 5 (by decide) rfl rfl).2.2 (by decide)
  exact h

/-- C3: `CompactSize::from_bytes` on any byte buffer: a first byte
`≤ 0xfc` decodes to itself with consumed 1; first byte `0xfd`/`0xfe`/`0xff`
fails with `InsufficientBytes` when fewer than 3/5/9 bytes are available,
and otherwise reads the little-endian integer of width 2/4/8 from the
following bytes with consumed 3/5/9. -/
theorem compactsize_decode_cases (bytes : List Nat) (hb : byteList bytes) :
    (∀ b0 rest, bytes = b0 :: rest → b0 ≤ 0xfc →
      CompactSize.from_bytes bytes = .ok (CompactSize.new b0, 1))
    ∧ (∀ rest, bytes = 0xfd :: rest →
        (bytes.length < 3 → CompactSize.from_bytes bytes = .error .InsufficientBytes)
        ∧ (3 ≤ bytes.length →
            CompactSize.from_bytes bytes = .ok (CompactSize.new (fromLe (rest.take 2)), 3)))
    ∧ (∀ rest, bytes = 0xfe :: rest →
        (bytes.length < 5 → CompactSize.from_bytes bytes = .error .InsufficientBytes)
        ∧ (5 ≤ bytes.length →
            CompactSize.from_bytes bytes = .ok (CompactSize.new (fromLe (rest.take 4)), 5)))
    ∧ (∀ rest, bytes = 0xff :: rest →
        (bytes.length < 9 → CompactSize.from_bytes bytes = .error .InsufficientBytes)
        ∧ (9 ≤ bytes.length →
            CompactSize.from_bytes bytes = .ok (CompactSize.new (fromLe (rest.take 8)), 9))) := by
  refine ⟨?_, ?_, ?_, ?_⟩
  · intro b0 rest he hsmall
    rw [he]
    exact CompactSize.from_bytes_small hsmall rest
  · intro rest he
    subst he
    constructor
    · intro hshort
      exact CompactSize.from_bytes_fd_short rest (by simp at hshort ⊢; omega)
    · intro hge
      exact CompactSize.from_bytes_fd rest (by simp at hge ⊢; omega)
  · intro rest he
    subst he
    constructor
    · intro hshort
      exact CompactSize.from_bytes_fe_short rest (by simp at hshort ⊢; omega)
    · intro hge
      exact CompactSize.from_bytes_fe rest (by simp at hge ⊢; omega)
  · intro rest he
    subst he
    constructor
    · intro hshort
      exact CompactSize.from_bytes_ff_short rest (by simp at hshort ⊢; omega)
    · intro hge
      exact CompactSize.from_bytes_ff rest (by simp at hge ⊢; omega)

/-- Witness for C3: the spec's truncation example, `[0xfd, 0x01, 0x00]`
decodes to value 1 with consumed 3. -/
theorem compactsize_decode_cases_witness :
    CompactSize.from_bytes [0xfd, 1, 0] = .ok (CompactSize.new 1, 3) :=
  ((compactsize_decode_cases [0xfd, 1, 0]
    (by simp only [byteList]; decide)).2.1 [1, 0] rfl).2 (by decide)

/-- C4: decoding never rejects a non-minimal encoding: for every value `v`
and every marker width wide enough to hold `v`, the marker byte followed by
`v` in little-endian of that width decodes to `v` with the width's consumed
count — even though the encoder would emit a shorter form (for value 5 a
single byte `0x05`). -/
theorem compactsize_nonminimal_accepted (v : Nat) (rest : List Nat) :
    (v < 2 ^ 16 → CompactSize.from_bytes (0xfd :: (toLeBytes 2 v ++ rest))
        = .ok (CompactSize.new v, 3))
    ∧ (v < 2 ^ 32 → CompactSize.from_bytes (0xfe :: (toLeBytes 4 v ++ rest))
        = .ok (CompactSize.new v, 5))
    ∧ (v < 2 ^ 64 → CompactSize.from_bytes (0xff :: (toLeBytes 8 v ++ rest))
        = .ok (CompactSize.new v, 9))
    ∧ (CompactSize.new 5).to_bytes = [5] := by
  refine ⟨?_, ?_, ?_, by decide⟩
  · intro hv
    rw [CompactSize.from_bytes_fd _ (by simp [length_toLeBytes]),
      take_append_of_length rest (length_toLeBytes 2 v),
      fromLe_toLeBytes_of_lt (by norm_num at hv ⊢; omega)]
  · intro hv
    rw [CompactSize.from_bytes_fe _ (by simp [length_toLeBytes]),
      take_append_of_length rest (length_toLeBytes 4 v),
      fromLe_toLeBytes_of_lt (by norm_num at hv ⊢; omega)]
  · intro hv
    rw [CompactSize.from_bytes_ff _ (by simp [length_toLeBytes]),
      take_append_of_length rest (length_toLeBytes 8 v),
      fromLe_toLeBytes_of_lt (by norm_num at hv ⊢; omega)]

/-- Witness for C4: the spec's example, 5 with the 8-byte marker, decodes
to value 5 consuming 9 bytes. -/
theorem compactsize_nonminimal_accepted_witness :
    CompactSize.from_bytes [0xff, 5, 0, 0, 0, 0, 0, 0, 0] = .ok (CompactSize.new 5, 9) :=
  (compactsize_nonminimal_accepted 5 []).2.2.1 (by norm_num)

/-- C5: `CompactSize::to_bytes` selects the width class by magnitude,
smallest first: 1 raw byte up to 252; `0xfd` + 2-byte LE through 65535;
`0xfe` + 4-byte LE through 4294967295; `0xff` + 8-byte LE beyond, up to
`2^64 - 1`.  Each branch's payload is the value itself in little-endian. -/
theorem compactsize_encode_widths (v : Nat) :
    (v ≤ 252 → (CompactSize.new v).to_bytes = [v])
    ∧ (253 ≤ v → v ≤ 65535 →
        (CompactSize.new v).to_bytes = 0xfd :: toLeBytes 2 v
        ∧ (toLeBytes 2 v).length = 2 ∧ fromLe (toLeBytes 2 v) = v)
    ∧ (65536 ≤ v → v ≤ 4294967295 →
        (CompactSize.new v).to_bytes = 0xfe :: toLeBytes 4 v
        ∧ (toLeBytes 4 v).length = 4 ∧ fromLe (toLeBytes 4 v) = v)
    ∧ (4294967296 ≤ v → v ≤ 2 ^ 64 - 1 →
        (CompactSize.new v).to_bytes = 0xff :: toLeBytes 8 v
        ∧ (toLeBytes 8 v).length = 8 ∧ fromLe (toLeBytes 8 v) = v) := by
  refine ⟨?_, ?_, ?_, ?_⟩
  · intro h1
    unfold CompactSize.to_bytes
    rw [if_pos (by simpa [CompactSize.new] using h1)]
    simp [toLeBytes, CompactSize.new, Nat.mod_eq_of_lt (show v < 256 by omega)]
  · intro h1 h2
    refine ⟨?_, length_toLeBytes 2 v, fromLe_toLeBytes_of_lt (by norm_num; omega)⟩
    unfold CompactSize.to_bytes
    rw [if_neg (by simp [CompactSize.new]; omega), if_pos (by simp [CompactSize.new]; omega)]
    rfl
  · intro h1 h2
    refine ⟨?_, length_toLeBytes 4 v, fromLe_toLeBytes_of_lt (by norm_num; omega)⟩
    unfold CompactSize.to_bytes
    rw [if_neg (by simp [CompactSize.new]; omega), if_neg (by simp [CompactSize.new]; omega),
      if_pos (by simp [CompactSize.new]; omega)]
    rfl
  · intro h1 h2
    refine ⟨?_, length_toLeBytes 8 v, fromLe_toLeBytes_of_lt (by norm_num at h2 ⊢; omega)⟩
    unfold CompactSize.to_bytes
    rw [if_neg (by simp [CompactSize.new]; omega), if_neg (by simp [CompactSize.new]; omega),
      if_neg (by simp [CompactSize.new]; omega)]
    rfl

/-- Witness for C5: the boundary value 253 encodes as `0xfd` plus the
2-byte little-endian form `[253, 0]`. -/
theorem compactsize_encode_widths_witness :
    (CompactSize.new 253).to_bytes = [0xfd, 253, 0] :=
  ((compactsize_encode_widths 253).2.1 (by norm_num) (by norm_num)).1

/-- C6: `OutPoint::to_bytes` is exactly the 32 raw txid bytes followed by
the 4-byte little-endian vout (36 bytes total); `OutPoint::from_bytes`
fails with `InsufficientBytes` below 36 bytes and otherwise reads the
OutPoint from the first 36 bytes with consumed 36; decode inverts encode. -/
theorem outpoint_codec (o : OutPoint) (bytes : List Nat) (h : o.wf) :
    (o.to_bytes = o.txid.bytes ++ toLeBytes 4 o.vout
      ∧ o.to_bytes.length = 36 ∧ fromLe (toLeBytes 4 o.vout) = o.vout)
    ∧ (bytes.length < 36 → OutPoint.from_bytes bytes = .error .InsufficientBytes)
    ∧ (36 ≤ bytes.length → OutPoint.from_bytes bytes
        = .ok (OutPoint.new (bytes.take 32) (fromLe ((bytes.drop 32).take 4)), 36))
    ∧ (∀ rest, OutPoint.from_bytes (o.to_bytes ++ rest) = .ok (o, 36)) := by
  refine ⟨⟨rfl, outPoint_to_bytes_length o h.1.1, fromLe_toLeBytes_of_lt ?_⟩, ?_, ?_, ?_⟩
  · have := h.2
    norm_num at this ⊢
    omega
  · intro hshort
    unfold OutPoint.from_bytes
    rw [if_pos hshort]
  · intro hge
    unfold OutPoint.from_bytes
    rw [if_neg (by omega)]
  · intro rest
    exact outPoint_from_to o h rest

/-- Witness for C6: a zero txid with vout 1 encodes to 36 bytes and decodes
back with consumed 36. -/
theorem outpoint_codec_witness :
    OutPoint.from_bytes (OutPoint.new (List.replicate 32 0) 1).to_bytes
      = .ok (OutPoint.new (List.replicate 32 0) 1, 36) := by
  have h := (outpoint_codec (OutPoint.new (List.replicate 32 0) 1) [] (by
    simp [OutPoint.wf, Txid.wf, byteList, OutPoint.new])).2.2.2 []
  simpa using h

/-- On every input whose prefix sum does not overflow `usize`, the
compiled-semantics decoder `Script.from_bytes_usize` agrees with the
exact-arithmetic model `Script.from_bytes`; the two differ only on the
panic inputs (marker `0xff` with decoded length at least `2 ^ 64 - 9`). -/
theorem script_from_bytes_usize_agrees (bytes : List Nat)
    (h : ∀ c p, CompactSize.from_bytes bytes = .ok (c, p) → p + c.value < 2 ^ 64) :
    Script.from_bytes_usize bytes = some (Script.from_bytes bytes) := by
  unfold Script.from_bytes_usize Script.from_bytes
  cases hcs : CompactSize.from_bytes bytes with
  | error e => rfl
  | ok q =>
    obtain ⟨c, p⟩ := q
    dsimp only
    rw [if_pos (h c p hcs)]
    split_ifs <;> rfl

/-- C7: the claimed behaviour — `InsufficientBytes` whenever fewer than
`n` bytes remain after the length prefix — does not hold of the code: at
the 9-byte input `0xff` followed by the little-endian bytes of
`2 ^ 64 - 9`, the prefix decodes to length `2 ^ 64 - 9` with consumed 9,
the `usize` sum `consumed + len` overflows, and the compiled program
panics (debug build: add overflow at the check; release build: inverted
slice range `bytes[9..0]`), modelled as `none`, where the claim and the
spec require the `InsufficientBytes` error (the exact-arithmetic branch,
third conjunct, is the intended behaviour the code misses). -/
theorem script_usize_overflow_panic :
    CompactSize.from_bytes [0xff, 0xf7, 0xff, 0xff, 0xff, 0xff, 0xff, 0xff, 0xff]
      = .ok (CompactSize.new (2 ^ 64 - 9), 9)
    ∧ Script.from_bytes_usize [0xff, 0xf7, 0xff, 0xff, 0xff, 0xff, 0xff, 0xff, 0xff]
      = none
    ∧ Script.from_bytes [0xff, 0xf7, 0xff, 0xff, 0xff, 0xff, 0xff, 0xff, 0xff]
      = .error .InsufficientBytes :=
  ⟨rfl, rfl, rfl⟩

/-- C8: for every 32-byte array, parsing the hex rendering of a `Txid`
returns the original bytes; the rendering is exactly 64 lowercase hex
characters; and parsing a hex string whose decoded byte length is not 32
(such as any 63- or 65-character string) fails with the custom
(InvalidFormat-class) deserialization error. -/
theorem txid_hex_roundtrip (l : List Nat) (h32 : l.length = 32) (hb : byteList l) :
    Txid.deserializeHex (Txid.serializeHex ⟨l⟩) = .ok ⟨l⟩
    ∧ (Txid.serializeHex ⟨l⟩).length = 64
    ∧ (∀ c ∈ Txid.serializeHex ⟨l⟩, c ∈ hexDigitChars)
    ∧ (∀ s : List Char, s.length = 63 ∨ s.length = 65 →
        Txid.deserializeHex s = .error .custom)
    ∧ (∀ s bs, hexDecode s = some bs → bs.length ≠ 32 →
        Txid.deserializeHex s = .error .custom) := by
  refine ⟨?_, ?_, ?_, ?_, ?_⟩
  · unfold Txid.deserializeHex Txid.serializeHex
    rw [hexDecode_hexEncode l hb]
    dsimp only
    rw [if_pos h32]
  · unfold Txid.serializeHex
    rw [length_hexEncode, h32]
  · exact hexEncode_lowercase l hb
  · intro s hlen
    unfold Txid.deserializeHex
    rw [hexDecode_odd s (by rcases hlen with h | h <;> simp [h])]
  · intro s bs hdec hne
    unfold Txid.deserializeHex
    rw [hdec]
    dsimp only
    rw [if_neg hne]

/-- Witness for C8: the all-zero 32-byte txid renders to 64 zeros and
parses back to itself. -/
theorem txid_hex_roundtrip_witness :
    Txid.deserializeHex (Txid.serializeHex ⟨List.replicate 32 0⟩)
      = .ok ⟨List.replicate 32 0⟩ :=
  (txid_hex_roundtrip (List.replicate 32 0) (by decide)
    (by simp only [byteList]; decide)).1

/-- C9: decoding the empty buffer with any of the five decoders returns
the `InsufficientBytes` error (no panic, no default value — each decoder
totalises to exactly this error). -/
theorem empty_buffer_decode :
    CompactSize.from_bytes [] = .error .InsufficientBytes
    ∧ OutPoint.from_bytes [] = .error .InsufficientBytes
    ∧ Script.from_bytes [] = .error .InsufficientBytes
    ∧ TransactionInput.from_bytes [] = .error .InsufficientBytes
    ∧ BitcoinTransaction.from_bytes [] = .error .InsufficientBytes :=
  ⟨rfl, rfl, rfl, rfl, rfl⟩

/-- C10: whenever a decoder succeeds, the consumed count it reports never
exceeds the length of the buffer it was given; for the transaction decode
loop, a cursor that starts in bounds stays in bounds, so every slice
`bytes[cursor..]` the Rust loop takes is well defined. -/
theorem consumed_within_bounds (bytes : List Nat) :
    (∀ c n, CompactSize.from_bytes bytes = .ok (c, n) → n ≤ bytes.length)
    ∧ (∀ o n, OutPoint.from_bytes bytes = .ok (o, n) → n ≤ bytes.length)
    ∧ (∀ s n, Script.from_bytes bytes = .ok (s, n) → n ≤ bytes.length)
    ∧ (∀ i n, TransactionInput.from_bytes bytes = .ok (i, n) → n ≤ bytes.length)
    ∧ (∀ t n, BitcoinTransaction.from_bytes bytes = .ok (t, n) → n ≤ bytes.length)
    ∧ (∀ k cursor ins c2, cursor ≤ bytes.length →
        decodeInputs k bytes cursor = .ok (ins, c2) → c2 ≤ bytes.length) :=
  ⟨fun c n h => compactSize_consumed_le bytes c n h,
   fun o n h => outPoint_consumed_le bytes o n h,
   fun s n h => script_consumed_le bytes s n h,
   fun i n h => input_consumed_le bytes i n h,
   fun t n h => transaction_consumed_le bytes t n h,
   fun k cursor ins c2 hc h => decodeInputs_cursor_le k bytes cursor ins c2 hc h⟩

/-- Witness for C10: the 50-byte example encoding decodes with consumed
50 = its length. -/
theorem consumed_within_bounds_witness : (50 : Nat) ≤ exTx.to_bytes.length :=
  (consumed_within_bounds exTx.to_bytes).2.2.2.2.1 exTx 50 rfl

end BitcoinCodec
